import Mathlib

/-!
Verification development for the Wright editor core
(selection tracker, focus style synchronizer, typewriter scroll
controller, edit persistence pipeline).

Each definition is a shallow embedding of a function of the repository:

* `extractTitleFromContent`, `stripMarkdown`, … — `src/stores/documents.ts`
  lines 26–51 (title extraction with markdown stripping).
* `PipelineState`, `step`, `run` — the edit persistence pipeline of
  `src/stores/documents.ts` (`updateContent` lines 77–119, `saveNow`
  lines 167–191) together with `updateDocument` of `lib/db.ts`
  (a partial, merging store update).  The asynchronous parts
  (`setTimeout` callback, `await updateDocument`) are modelled as a
  small-step event semantics on a per-document state: an `edit` event is
  one synchronous `updateContent` call, `timerFire` is the debounce
  callback running up to its first `await` (it starts the store write),
  `complete` is the resolution of that write (success or rejection: the
  code after the `await`, resp. the `catch` block), and `saveNowEv` is a
  `saveNow` call up to its `await`.  Wall-clock time is explicit: events
  carry their time, time never goes backwards, and a pending debounce
  timer fires exactly at its deadline (an event later than a pending
  deadline is rejected by the scheduler guards, because the real event
  loop would have fired the timer first).
* `applyFocusActiveStyle` — `src/components/Editor.svelte` lines 150–202.
* `twFrame`, `twCursor`, `twCursorJump` — the typewriter scroll
  controller: `animateTypewriterScroll` / `applyTypewriterMode` of
  `src/components/Editor.svelte` lines 224–291 and the historical
  variant with the instant-jump classification in `unnamed/part_000`
  lines 413–459.  Geometry and time are modelled as rationals.
* `selStep`, `selRun` — the throttled selection-change handler
  `handleSelectionChange`, `src/components/Editor.svelte` lines 306–333.
-/

namespace Wright

/-! ### Title extraction (`documents.ts` lines 26–51)

`extractTitleFromContent` splits the content on newlines, takes the
first line whose trim is non-empty, strips markdown formatting from it
with a chain of JavaScript `String.replace` calls, and returns the
result unless it strips down to nothing, in which case it moves on to
the next line; `null` if no line yields a title.

The regex replacements are embedded as scanning functions over
`List Char` with JavaScript global/lazy semantics: scan left to right,
at each position try the shortest match, on success emit the capture
and resume after the match (the emitted capture is not rescanned in the
same pass).  The recursive scanners take an explicit fuel argument so
that they compute by kernel reduction; every recursive call strictly
shrinks the character list, so fuel equal to the list length always
suffices. -/

/-- JavaScript regex `.`: any character except line terminators. -/
def isDot (c : Char) : Bool := c ≠ '\n' && c ≠ '\r'

/-- Lazy match for `(.+?)` followed by the literal `close`: returns the
shortest non-empty run of `.`-characters such that `close` follows,
together with the remainder after `close`. -/
def findLazy (close : List Char) : List Char → Option (List Char × List Char)
  | [] => none
  | c :: rest =>
    if isDot c then
      if close.isPrefixOf rest then
        some ([c], rest.drop close.length)
      else
        match findLazy close rest with
        | some (content, after) => some (c :: content, after)
        | none => none
    else none

/-- One global-replace pass for a pattern `delim(.+?)delim` with
replacement `$1` (covers `**`, `*`, `__`, `_`, `~~` and inline code). -/
def replaceDelimF (delim : List Char) : Nat → List Char → List Char
  | _, [] => []
  | 0, s => s
  | fuel + 1, c :: rest =>
    if delim.isPrefixOf (c :: rest) then
      match findLazy delim ((c :: rest).drop delim.length) with
      | some (content, after) => content ++ replaceDelimF delim fuel after
      | none => c :: replaceDelimF delim fuel rest
    else c :: replaceDelimF delim fuel rest

def replaceDelim (delim : List Char) (s : List Char) : List Char :=
  replaceDelimF delim s.length s

/-- Lazy match for the tail of a markdown link `(.+?)\]\(.+?\)` after the
opening bracket: link text, then `](`, then a lazy non-empty URL, then
`)`.  Returns the link text and the remainder after the closing paren. -/
def findLinkTail : List Char → Option (List Char × List Char)
  | [] => none
  | c :: rest =>
    if isDot c then
      match rest with
      | ']' :: '(' :: rest₂ =>
        match findLazy [')'] rest₂ with
        | some (_, after) => some ([c], after)
        | none =>
          match findLinkTail rest with
          | some (content, after) => some (c :: content, after)
          | none => none
      | _ =>
        match findLinkTail rest with
        | some (content, after) => some (c :: content, after)
        | none => none
    else none

/-- One global-replace pass for `\[(.+?)\]\(.+?\)` with replacement `$1`
(markdown links, keeping the text). -/
def replaceLinkF : Nat → List Char → List Char
  | _, [] => []
  | 0, s => s
  | fuel + 1, c :: rest =>
    if c = '[' then
      match findLinkTail rest with
      | some (content, after) => content ++ replaceLinkF fuel after
      | none => c :: replaceLinkF fuel rest
    else c :: replaceLinkF fuel rest

def replaceLink (s : List Char) : List Char := replaceLinkF s.length s

/-- Drop through the first `>` of the list, if any. -/
def dropThroughGt : List Char → Option (List Char)
  | [] => none
  | c :: rest => if c = '>' then some rest else dropThroughGt rest

/-- One global-replace pass removing `<[^>]*>` (HTML tags). -/
def replaceHtmlF : Nat → List Char → List Char
  | _, [] => []
  | 0, s => s
  | fuel + 1, c :: rest =>
    if c = '<' then
      match dropThroughGt rest with
      | some after => replaceHtmlF fuel after
      | none => c :: replaceHtmlF fuel rest
    else c :: replaceHtmlF fuel rest

def replaceHtml (s : List Char) : List Char := replaceHtmlF s.length s

/-- Anchored replace of `^#{1,6}\s+` by the empty string: strip one to
six leading hash marks when they are followed by at least one
whitespace character, together with all that whitespace. -/
def stripHeading (s : List Char) : List Char :=
  let hashes := s.takeWhile (· = '#')
  let rest := s.drop hashes.length
  if 1 ≤ hashes.length && hashes.length ≤ 6 then
    match rest with
    | c :: _ => if c.isWhitespace then rest.dropWhile Char.isWhitespace else s
    | [] => s
  else s

/-- The inline-code delimiter (a single backquote character). -/
def codeTick : Char := Char.ofNat 96

/-- JavaScript `content.split('\n')`, on character lists (structural, so
that it computes by kernel reduction; `String.splitOn` does not). -/
def splitLines : List Char → List (List Char)
  | [] => [[]]
  | c :: rest =>
    if c = '\n' then [] :: splitLines rest
    else
      match splitLines rest with
      | [] => [[c]]
      | l :: ls => (c :: l) :: ls

/-- JavaScript `String.prototype.trim` on character lists. -/
def jsTrim (s : List Char) : List Char :=
  ((s.dropWhile Char.isWhitespace).reverse.dropWhile Char.isWhitespace).reverse

/-- The chain of `.replace` calls of `extractTitleFromContent`
(`documents.ts` lines 33–43), applied in source order, followed by the
final `.trim()`. -/
def stripMarkdown (s : List Char) : List Char :=
  let l := stripHeading s
  let l := replaceDelim ['*', '*'] l
  let l := replaceDelim ['*'] l
  let l := replaceDelim ['_', '_'] l
  let l := replaceDelim ['_'] l
  let l := replaceDelim ['~', '~'] l
  let l := replaceDelim [codeTick] l
  let l := replaceLink l
  let l := replaceHtml l
  jsTrim l

/-- The loop body of `extractTitleFromContent`: first line whose trim is
non-empty and whose stripped form is non-empty and not all whitespace. -/
def firstTitle : List (List Char) → Option String
  | [] => none
  | line :: rest =>
    let trimmed := jsTrim line
    if trimmed ≠ [] then
      let title := stripMarkdown trimmed
      if title ≠ [] && !(title.all Char.isWhitespace) then some (String.mk title)
      else firstTitle rest
    else firstTitle rest

/-- `extractTitleFromContent` (`documents.ts` lines 26–51). -/
def extractTitleFromContent (content : String) : Option String :=
  firstTitle (splitLines content.toList)

/-- The JavaScript expression `extractedTitle || 'Untitled'`
(`documents.ts` line 83): the fallback also fires on an empty string,
which is falsy. -/
def jsTitle (content : String) : String :=
  match extractTitleFromContent content with
  | some t => if t = "" then "Untitled" else t
  | none => "Untitled"

/-! ### Edit persistence pipeline (`documents.ts` lines 77–119, 167–191)

State per open document.  `timer` models the single `saveTimeout`
variable: `clearTimeout` is `timer := none`, `setTimeout(cb, 1000)` is
`timer := some ⟨now + 1000, …captured closure variables…⟩`.  `inFlight`
is the multiset of store writes that have been started (the
`updateDocument` promise is pending); `writes` is an append-only log of
every started write, in start order.  `stored` is the durable copy of
the current document in the store; `updateDocument` (`lib/db.ts` lines
64–78) merges partial updates, so a write without a `title` field leaves
the stored title unchanged.  `documents`-list patching, `updatedAt` and
`wordCount` are not modelled: no claim mentions them. -/

/-- Save status enum (`saveStatus` store, `documents.ts` line 20). -/
inductive SaveStatus where
  | saved
  | saving
  | unsaved
deriving DecidableEq, Repr

/-- The in-memory `currentDocument` fields the pipeline touches. -/
structure Doc where
  id : Option Nat
  title : String
  content : String
deriving DecidableEq, Repr

/-- The durable copy of the document in the store. -/
structure StoredDoc where
  title : String
  content : String
deriving DecidableEq, Repr

/-- A store write as passed to `updateDocument`: `title` is `some` only
when the debounce callback decided `titleChanged` (`documents.ts` lines
99–102); `saveNow` passes `{ content }` only (line 177). -/
structure WriteReq where
  docId : Nat
  content : String
  title : Option String
deriving DecidableEq, Repr

/-- The closure captured by `setTimeout` in `updateContent` (lines
95–118): the pre-edit document's id and the edit's `content`,
`newTitle`, `titleChanged`, plus the absolute fire deadline. -/
structure Timer where
  fireAt : Nat
  docId : Option Nat
  content : String
  newTitle : String
  titleChanged : Bool
deriving DecidableEq, Repr

structure PipelineState where
  now : Nat
  doc : Option Doc
  status : SaveStatus
  timer : Option Timer
  inFlight : List WriteReq
  writes : List WriteReq
  stored : StoredDoc
deriving DecidableEq, Repr

/-- Events of the single-threaded event loop, with explicit times where
the code reads or races against the clock. -/
inductive Ev where
  | edit (t : Nat) (content : String)
  | timerFire
  | complete (req : WriteReq) (ok : Bool)
  | saveNowEv
deriving DecidableEq, Repr

/-- Dexie `updateDocument`: merge the partial update into the stored
document (`lib/db.ts` lines 64–78). -/
def applyWrite (st : StoredDoc) (req : WriteReq) : StoredDoc :=
  { title := req.title.getD st.title, content := req.content }

/-- Whether a pending debounce deadline lies at or before time `t`. -/
def timerDue (s : PipelineState) (t : Nat) : Bool :=
  match s.timer with
  | some tm => tm.fireAt ≤ t
  | none => false

/-- One event of the pipeline.  `none` means the event cannot occur
there: time running backwards, an event later than a pending debounce
deadline (the real event loop would fire the timer first), a spurious
timer fire, or a completion with no matching write in flight. -/
def step (s : PipelineState) : Ev → Option PipelineState
  | .edit t c =>
    if t < s.now then none
    else if timerDue s t then none
    else
      match s.doc with
      | none => some { s with now := t }
      | some d =>
        let newTitle := jsTitle c
        some { s with
          now := t
          doc := some { d with content := c, title := newTitle }
          status := .unsaved
          timer := some ⟨t + 1000, d.id, c, newTitle, newTitle ≠ d.title⟩ }
  | .timerFire =>
    match s.timer with
    | none => none
    | some tm =>
      let s₁ := { s with now := tm.fireAt, timer := none, status := .saving }
      match tm.docId with
      | some i =>
        let req : WriteReq :=
          ⟨i, tm.content, if tm.titleChanged then some tm.newTitle else none⟩
        some { s₁ with inFlight := req :: s₁.inFlight, writes := s₁.writes ++ [req] }
      | none => some { s₁ with status := .saved }
  | .complete req ok =>
    if req ∈ s.inFlight then
      let s₁ := { s with inFlight := s.inFlight.erase req }
      if ok then some { s₁ with status := .saved, stored := applyWrite s.stored req }
      else some { s₁ with status := .unsaved }
    else none
  | .saveNowEv =>
    let s₁ := { s with timer := none }
    match s.doc with
    | none => some s₁
    | some d =>
      match d.id with
      | none => some s₁
      | some i =>
        let req : WriteReq := ⟨i, d.content, none⟩
        some { s₁ with
          status := .saving
          inFlight := req :: s₁.inFlight
          writes := s₁.writes ++ [req] }

/-- Run a list of events from a state; fails if any event is rejected. -/
def run (s : PipelineState) : List Ev → Option PipelineState
  | [] => some s
  | e :: es =>
    match step s e with
    | some s' => run s' es
    | none => none

/-- A quiescent initial state at time 0 for a loaded document `d`: no
timer pending, nothing in flight, status `saved`, store in sync. -/
def initState (d : Doc) : PipelineState :=
  { now := 0
    doc := some d
    status := .saved
    timer := none
    inFlight := []
    writes := []
    stored := ⟨d.title, d.content⟩ }

/-! ### Focus style synchronizer (`Editor.svelte` lines 105–214)

`applyFocusActiveStyle` resolves the active block's index among the
ProseMirror root's children and maintains one owned `<style>` element.
The DOM-resolution part (settings lookup, `querySelector`,
`findActiveBlock`, `getBlockIndex`) is an oracle input here: each call
arrives either as one of the early-return cases or as a resolved block
index (which is `-1` when `getBlockIndex` finds no containing block).
The returned `Bool` reports whether the call touched the owned style
resource (created the element or assigned its rule text). -/

/-- One line of the nth-child selector block (`Editor.svelte` lines
182–197); `n` is `blockIndex + 1`. -/
def nthChildSelector (tag : String) (n : Int) : String :=
  ".editor-container.focus-mode .milkdown .ProseMirror > " ++ tag ++
    ":nth-child(" ++ toString n ++ ")"

/-- The rule text assigned to the owned style element for a given block
index (whitespace normalized; the selector list and body follow
`Editor.svelte` lines 182–200). -/
def focusRule (blockIndex : Int) : String :=
  let n := blockIndex + 1
  String.intercalate ",\n"
    ([nthChildSelector "*" n, nthChildSelector "*" n ++ " *"] ++
      (["h1", "h2", "h3", "h4", "h5", "h6", "p"].map (nthChildSelector · n)) ++
      [nthChildSelector "ul" n, nthChildSelector "ul" n ++ " li",
       nthChildSelector "ol" n, nthChildSelector "ol" n ++ " li",
       nthChildSelector "blockquote" n, nthChildSelector "pre" n]) ++
    " \x7b opacity: 1 !important; \x7d"

/-- State of the synchronizer: `lastActiveBlockIndex` (line 108) and the
owned style element's rule text, `none` while no element exists. -/
structure FocusState where
  lastActiveBlockIndex : Int
  styleEl : Option String
deriving DecidableEq, Repr

/-- How one call's DOM resolution turned out. -/
inductive FocusInput where
  | off
  | noSurface
  | noBlock
  | resolved (blockIndex : Int)
deriving DecidableEq, Repr

/-- `applyFocusActiveStyle` (`Editor.svelte` lines 150–202): early
returns touch nothing; an unchanged index returns before touching the
style resource; otherwise the element is created if absent and, for a
non-negative index, its rule text is replaced. -/
def applyFocusActiveStyle (s : FocusState) : FocusInput → FocusState × Bool
  | .off => (s, false)
  | .noSurface => (s, false)
  | .noBlock => (s, false)
  | .resolved i =>
    if i = s.lastActiveBlockIndex then (s, false)
    else
      let created := s.styleEl.isNone
      let el := s.styleEl.getD ""
      if 0 ≤ i then ({ lastActiveBlockIndex := i, styleEl := some (focusRule i) }, true)
      else ({ lastActiveBlockIndex := i, styleEl := some el }, created)

/-- Run a sequence of calls, counting how many touched the style
resource. -/
def runFocus (s : FocusState) : List FocusInput → FocusState × Nat
  | [] => (s, 0)
  | inp :: rest =>
    let p := applyFocusActiveStyle s inp
    let q := runFocus p.1 rest
    (q.1, (if p.2 then 1 else 0) + q.2)

/-! ### Typewriter scroll controller (`Editor.svelte` lines 216–299 and
`unnamed/part_000` lines 403–496)

Geometry and wall-clock time are rationals.  `frame` models
`typewriterAnimationFrame != null` (a step is scheduled);
`lastCursorY` exists only in the `part_000` variant and is never read
or written by the current `Editor.svelte` functions. -/

structure TWState where
  scrollTop : ℚ
  currentScrollTarget : ℚ
  isTypewriterAnimating : Bool
  frame : Bool
  typewriterAnimationStartTime : ℚ
  lastCursorY : ℚ
deriving DecidableEq, Repr

/-- `TYPEWRITER_MAX_ANIMATION_MS` (line 222). -/
def TYPEWRITER_MAX_ANIMATION_MS : ℚ := 500

/-- `INSTANT_SCROLL_THRESHOLD` (`part_000` line 411). -/
def INSTANT_SCROLL_THRESHOLD : ℚ := 30

/-- One execution of `animateTypewriterScroll` (`Editor.svelte` lines
263–291) at wall-clock time `now`: stop past the hard duration cap,
stop when within half a pixel of the target, otherwise move 20% of the
remaining distance and schedule another frame. -/
def twFrame (s : TWState) (now : ℚ) : TWState :=
  if now - s.typewriterAnimationStartTime > TYPEWRITER_MAX_ANIMATION_MS then
    { s with isTypewriterAnimating := false, frame := false }
  else
    let diff := s.currentScrollTarget - s.scrollTop
    if |diff| < 1/2 then { s with isTypewriterAnimating := false, frame := false }
    else
      { s with
        isTypewriterAnimating := true
        scrollTop := s.scrollTop + diff * (20/100)
        frame := true }

/-- One call of the current `applyTypewriterMode` (`Editor.svelte` lines
224–261) at time `now`, after the DOM guards passed, with the cursor at
`cursorRelY` relative to the scroll area and the area's vertical center
at `targetY`.  Inside the 2px deadband nothing happens; otherwise the
target is updated and, when no animation is running, a task starts
(recording its start time and synchronously running the first step). -/
def twCursor (s : TWState) (cursorRelY targetY now : ℚ) : TWState :=
  let diff := cursorRelY - targetY
  if |diff| > 2 then
    let s₁ := { s with currentScrollTarget := s.scrollTop + diff }
    if !s.isTypewriterAnimating then
      twFrame { s₁ with typewriterAnimationStartTime := now } now
    else s₁
  else s

/-- One execution of the `part_000` `animateTypewriterScroll` (lines
461–488): identical shape, 30% step. -/
def twFrameJump (s : TWState) (now : ℚ) : TWState :=
  if now - s.typewriterAnimationStartTime > TYPEWRITER_MAX_ANIMATION_MS then
    { s with isTypewriterAnimating := false, frame := false }
  else
    let diff := s.currentScrollTarget - s.scrollTop
    if |diff| < 1/2 then { s with isTypewriterAnimating := false, frame := false }
    else
      { s with
        isTypewriterAnimating := true
        scrollTop := s.scrollTop + diff * (30/100)
        frame := true }

/-- `cancelTypewriterAnimation` (lines 293–299 / `part_000` 490–496). -/
def cancelTypewriterAnimation (s : TWState) : TWState :=
  { s with frame := false, isTypewriterAnimating := false }

/-- One call of the `part_000` `applyTypewriterMode(forceInstant)`
(lines 413–459): it additionally records `lastCursorY`, classifies a
movement larger than `INSTANT_SCROLL_THRESHOLD` (or a forced call) as a
jump, and applies jumps instantly, cancelling any running animation. -/
def twCursorJump (s : TWState) (forceInstant : Bool)
    (cursorRelY targetY now : ℚ) : TWState :=
  let diff := cursorRelY - targetY
  let cursorJump := |cursorRelY - s.lastCursorY|
  let shouldInstantScroll := forceInstant || cursorJump > INSTANT_SCROLL_THRESHOLD
  let s₀ := { s with lastCursorY := cursorRelY }
  if |diff| > 2 then
    let s₁ := { s₀ with currentScrollTarget := s.scrollTop + diff }
    if shouldInstantScroll then
      let s₂ := cancelTypewriterAnimation s₁
      { s₂ with scrollTop := s₁.currentScrollTarget }
    else if !s.isTypewriterAnimating then
      twFrameJump { s₁ with typewriterAnimationStartTime := now } now
    else s₁
  else s₀

/-- Events hitting the controller while a task may be running: a
scheduled frame executing at time `t`, or a cursor move. -/
inductive TWEv where
  | frame (t : ℚ)
  | cursor (relY targetY t : ℚ)
deriving DecidableEq, Repr

/-- Run the current-version controller over a sequence of events; a
frame event only does anything if a frame is actually scheduled. -/
def twRun (s : TWState) : List TWEv → TWState
  | [] => s
  | .frame t :: es => twRun (if s.frame then twFrame s t else s) es
  | .cursor y ty t :: es => twRun (twCursor s y ty t) es

/-- All intermediate states of `twRun`, including first and last. -/
def twStates (s : TWState) : List TWEv → List TWState
  | [] => [s]
  | .frame t :: es => s :: twStates (if s.frame then twFrame s t else s) es
  | .cursor y ty t :: es => s :: twStates (twCursor s y ty t) es

/-! ### Throttled selection-change handler (`Editor.svelte` lines
301–333)

`handleSelectionChange` throttles full recomputations
(`detectActiveFormats` plus the focus style update) to one per
`SELECTION_CHANGE_THROTTLE_MS`, and schedules at most one trailing
recomputation via `requestAnimationFrame` while throttled.  The
selection state itself is opaque: each selection event carries a value,
a recomputation snapshots the value current at its execution time.
`immTimes` logs the times of immediate (non-throttled) recomputations
and `rafCount` counts trailing (animation-frame) recomputations. -/

/-- `SELECTION_CHANGE_THROTTLE_MS` (line 304). -/
def SELECTION_CHANGE_THROTTLE_MS : Nat := 50

structure SelState where
  now : Nat
  lastSelectionChangeTime : Nat
  rafPending : Bool
  cur : Nat
  lastRecomputed : Option Nat
  immTimes : List Nat
  rafCount : Nat
deriving DecidableEq, Repr

/-- Selection-change event at time `t` carrying selection state `v`, or
the pending animation-frame callback executing at time `t`. -/
inductive SelEv where
  | sel (t : Nat) (v : Nat)
  | raf (t : Nat)
deriving DecidableEq, Repr

/-- One event of the handler.  A `sel` event runs
`handleSelectionChange` (lines 306–333); a `raf` event runs the
callback scheduled at line 313 (and is rejected when none is pending).
Time never goes backwards. -/
def selStep (s : SelState) : SelEv → Option SelState
  | .sel t v =>
    if t < s.now then none
    else
      let s₀ := { s with now := t, cur := v }
      if t - s.lastSelectionChangeTime < SELECTION_CHANGE_THROTTLE_MS then
        some { s₀ with rafPending := true }
      else
        some { s₀ with
          lastSelectionChangeTime := t
          lastRecomputed := some v
          immTimes := s.immTimes ++ [t] }
  | .raf t =>
    if t < s.now then none
    else if s.rafPending then
      some { s with
        now := t
        rafPending := false
        lastSelectionChangeTime := t
        lastRecomputed := some s.cur
        rafCount := s.rafCount + 1 }
    else none

def selRun (s : SelState) : List SelEv → Option SelState
  | [] => some s
  | e :: es =>
    match selStep s e with
    | some s' => selRun s' es
    | none => none

/-- Handler state at page load: `lastSelectionChangeTime = 0`,
no callback pending. -/
def selInit : SelState :=
  { now := 0
    lastSelectionChangeTime := 0
    rafPending := false
    cur := 0
    lastRecomputed := none
    immTimes := []
    rafCount := 0 }

/-- Fixture document for concrete runs. -/
def docW : Doc := ⟨some 1, "t", ""⟩

/-- The edit carried by an event, if it is one. -/
def editOf : Ev → Option (Nat × String)
  | .edit t c => some (t, c)
  | _ => none

/-- Restriction to the event alphabet of the debounce-coalescing claim:
`updateContent` calls and debounce-timer fires. -/
def editOrFire : Ev → Bool
  | .edit _ _ => true
  | .timerFire => true
  | _ => false

/-- Pipeline state in the middle of an edit burst: at least one edit
has been applied (the latest at time `tcur` with content `ccur`), its
debounce timer is pending, and no write has been started yet. -/
structure MidBurst (i tcur : Nat) (ccur : String) (s : PipelineState) : Prop where
  hnow : s.now = tcur
  hdoc : ∃ dd, s.doc = some dd ∧ dd.id = some i
  htimer : ∃ tm, s.timer = some tm ∧ tm.fireAt = tcur + 1000 ∧
    tm.content = ccur ∧ tm.docId = some i
  hflight : s.inFlight = []
  hwrites : s.writes = []

/-! ## Pipeline invariants -/

/-- Reachable-state invariant of the persistence pipeline: a pending
timer never lies in the past, always mirrors the current in-memory
document (content, derived title, id), and its derived title is the one
computed from its content; every logged write that carries a title
carries the title derived from its own content; and whenever the status
is `saving` some write is actually in flight. -/
structure Inv (s : PipelineState) : Prop where
  timer_now : ∀ tm, s.timer = some tm → s.now ≤ tm.fireAt
  timer_doc : ∀ tm, s.timer = some tm →
    ∃ d, s.doc = some d ∧ tm.content = d.content ∧ tm.newTitle = d.title ∧
      tm.docId = d.id
  timer_title : ∀ tm, s.timer = some tm → tm.newTitle = jsTitle tm.content
  writes_title : ∀ w ∈ s.writes, ∀ ti, w.title = some ti → ti = jsTitle w.content
  saving_inflight : s.status = .saving → s.inFlight ≠ []

/-- Reachable-state invariant of the throttled selection handler: the
last-recomputation clock never runs ahead of time, every logged
immediate recomputation happened no later than the clock, and
successive immediate recomputations are at least one throttle period
apart. -/
structure SelInv (s : SelState) : Prop where
  hlast : s.lastSelectionChangeTime ≤ s.now
  himm_le : ∀ τ ∈ s.immTimes, τ ≤ s.lastSelectionChangeTime
  hsep : List.Chain'
    (fun a b => a + SELECTION_CHANGE_THROTTLE_MS ≤ b) s.immTimes

theorem inv_initState (d : Doc) : Inv (initState d) := by
  constructor <;> simp [initState]

theorem inv_step {s s' : PipelineState} {e : Ev}
    (h : Inv s) (hs : step s e = some s') : Inv s' := by
  cases e with
  | edit t c =>
    cases hdoc : s.doc with
    | none =>
      simp only [step, hdoc] at hs
      split at hs
      · simp at hs
      · split at hs
        · simp at hs
        · rename_i hlt hdue
          simp only [Option.some.injEq] at hs
          subst hs
          refine ⟨?_, ?_, ?_, ?_, ?_⟩
          · intro tm htm
            dsimp only at htm ⊢
            simp only [timerDue, htm, decide_eq_true_eq] at hdue
            omega
          · intro tm htm
            dsimp only at htm ⊢
            obtain ⟨d, hd, hrest⟩ := h.timer_doc tm htm
            rw [hdoc] at hd
            cases hd
          · intro tm htm
            dsimp only at htm
            exact h.timer_title tm htm
          · exact h.writes_title
          · exact h.saving_inflight
    | some d =>
      simp only [step, hdoc] at hs
      split at hs
      · simp at hs
      · split at hs
        · simp at hs
        · rename_i hlt hdue
          simp only [Option.some.injEq] at hs
          subst hs
          refine ⟨?_, ?_, ?_, ?_, ?_⟩
          · intro tm htm
            dsimp only at htm ⊢
            simp only [Option.some.injEq] at htm
            subst htm
            dsimp only
            omega
          · intro tm htm
            dsimp only at htm ⊢
            simp only [Option.some.injEq] at htm
            subst htm
            exact ⟨_, rfl, rfl, rfl, rfl⟩
          · intro tm htm
            dsimp only at htm
            simp only [Option.some.injEq] at htm
            subst htm
            rfl
          · exact h.writes_title
          · intro hst
            dsimp only at hst
            cases hst
  | timerFire =>
    cases htm : s.timer with
    | none => simp [step, htm] at hs
    | some tm =>
      cases hid : tm.docId with
      | some i =>
        simp only [step, htm, hid, Option.some.injEq] at hs
        subst hs
        refine ⟨?_, ?_, ?_, ?_, ?_⟩
        · intro tm' htm'
          dsimp only at htm'
          cases htm'
        · intro tm' htm'
          dsimp only at htm'
          cases htm'
        · intro tm' htm'
          dsimp only at htm'
          cases htm'
        · intro w hw ti hti
          dsimp only at hw
          simp only [List.mem_append, List.mem_singleton] at hw
          rcases hw with hw | hw
          · exact h.writes_title w hw ti hti
          · subst hw
            dsimp only at hti
            split at hti
            · cases hti
              exact h.timer_title tm htm
            · cases hti
        · intro _
          dsimp only
          simp
      | none =>
        simp only [step, htm, hid, Option.some.injEq] at hs
        subst hs
        refine ⟨?_, ?_, ?_, ?_, ?_⟩
        · intro tm' htm'; dsimp only at htm'; cases htm'
        · intro tm' htm'; dsimp only at htm'; cases htm'
        · intro tm' htm'; dsimp only at htm'; cases htm'
        · exact h.writes_title
        · intro hst; dsimp only at hst; cases hst
  | complete req ok =>
    simp only [step] at hs
    split at hs
    · rename_i hmem
      cases ok with
      | true =>
        simp only [if_pos] at hs
        simp only [Option.some.injEq] at hs
        subst hs
        refine ⟨?_, ?_, ?_, ?_, ?_⟩
        · intro tm htm; dsimp only at htm ⊢; exact h.timer_now tm htm
        · intro tm htm
          dsimp only at htm ⊢
          exact h.timer_doc tm htm
        · intro tm htm; dsimp only at htm; exact h.timer_title tm htm
        · exact h.writes_title
        · intro hst; dsimp only at hst; cases hst
      | false =>
        simp only [Bool.false_eq_true, if_false] at hs
        simp only [Option.some.injEq] at hs
        subst hs
        refine ⟨?_, ?_, ?_, ?_, ?_⟩
        · intro tm htm; dsimp only at htm ⊢; exact h.timer_now tm htm
        · intro tm htm
          dsimp only at htm ⊢
          exact h.timer_doc tm htm
        · intro tm htm; dsimp only at htm; exact h.timer_title tm htm
        · exact h.writes_title
        · intro hst; dsimp only at hst; cases hst
    · simp at hs
  | saveNowEv =>
    cases hdoc : s.doc with
    | none =>
      simp only [step, hdoc, Option.some.injEq] at hs
      subst hs
      refine ⟨?_, ?_, ?_, ?_, ?_⟩
      · intro tm htm; dsimp only at htm; cases htm
      · intro tm htm; dsimp only at htm; cases htm
      · intro tm htm; dsimp only at htm; cases htm
      · exact h.writes_title
      · intro hst
        dsimp only at hst
        exact h.saving_inflight hst
    | some d =>
      cases hid : d.id with
      | none =>
        simp only [step, hdoc, hid, Option.some.injEq] at hs
        subst hs
        refine ⟨?_, ?_, ?_, ?_, ?_⟩
        · intro tm htm; dsimp only at htm; cases htm
        · intro tm htm; dsimp only at htm; cases htm
        · intro tm htm; dsimp only at htm; cases htm
        · exact h.writes_title
        · intro hst
          dsimp only at hst
          exact h.saving_inflight hst
      | some i =>
        simp only [step, hdoc, hid, Option.some.injEq] at hs
        subst hs
        refine ⟨?_, ?_, ?_, ?_, ?_⟩
        · intro tm htm; dsimp only at htm; cases htm
        · intro tm htm; dsimp only at htm; cases htm
        · intro tm htm; dsimp only at htm; cases htm
        · intro w hw ti hti
          dsimp only at hw
          simp only [List.mem_append, List.mem_singleton] at hw
          rcases hw with hw | hw
          · exact h.writes_title w hw ti hti
          · subst hw; cases hti
        · intro _
          dsimp only
          simp

theorem inv_run {s s' : PipelineState} {es : List Ev}
    (h : Inv s) (hs : run s es = some s') : Inv s' := by
  induction es generalizing s with
  | nil => simp only [run, Option.some.injEq] at hs; subst hs; exact h
  | cons e es ih =>
    simp only [run] at hs
    cases hstep : step s e with
    | none => rw [hstep] at hs; cases hs
    | some s₁ =>
      rw [hstep] at hs
      exact ih (inv_step h hstep) hs

theorem inv_reachable {d : Doc} {es : List Ev} {s' : PipelineState}
    (hs : run (initState d) es = some s') : Inv s' :=
  inv_run (inv_initState d) hs

theorem firstTitle_all_blank {lines : List (List Char)}
    (h : ∀ l ∈ lines, jsTrim l = []) : firstTitle lines = none := by
  induction lines with
  | nil => rfl
  | cons l rest ih =>
    have hl : jsTrim l = [] := h l (List.mem_cons_self l rest)
    simp only [firstTitle, hl, ne_eq, not_true_eq_false, if_false]
    exact ih fun x hx => h x (List.mem_cons_of_mem l hx)

/-! ## Claims -/

/-- C10.  For every content string all of whose lines are empty or
whitespace-only (the empty string included), title extraction returns
no title, so `updateContent` sets the in-memory document's title to the
literal fallback `"Untitled"` — not an empty title and not the previous
title. -/
theorem c10_blank_content_untitled (content : String)
    (hws : ∀ l ∈ splitLines content.toList, jsTrim l = []) :
    jsTitle content = "Untitled" ∧
    ∀ (s s' : PipelineState) (t : Nat) (d : Doc), s.doc = some d →
      step s (.edit t content) = some s' →
      ∀ d', s'.doc = some d' → d'.title = "Untitled" := by
  have hnone : extractTitleFromContent content = none :=
    firstTitle_all_blank hws
  have hjs : jsTitle content = "Untitled" := by
    simp only [jsTitle, hnone]
  refine ⟨hjs, ?_⟩
  intro s s' t d hdoc hs d' hd'
  simp only [step, hdoc] at hs
  split at hs
  · simp at hs
  · split at hs
    · simp at hs
    · simp only [Option.some.injEq] at hs
      subst hs
      dsimp only at hd'
      simp only [Option.some.injEq] at hd'
      subst hd'
      exact hjs

/-- Witness for C10 at the concrete content `" \n\t"`. -/
theorem c10_witness :
    (∀ l ∈ splitLines " \n\t".toList, jsTrim l = []) ∧
    jsTitle " \n\t" = "Untitled" ∧
    step (initState docW) (.edit 5 " \n\t") =
      some { now := 5
             doc := some ⟨some 1, "Untitled", " \n\t"⟩
             status := .unsaved
             timer := some ⟨1005, some 1, " \n\t", "Untitled", true⟩
             inFlight := []
             writes := []
             stored := ⟨"t", ""⟩ } ∧
    (⟨some 1, "Untitled", " \n\t"⟩ : Doc).title = "Untitled" := by
  refine ⟨by decide, ?_, rfl, ?_⟩
  · exact (c10_blank_content_untitled " \n\t" (by decide)).1
  · exact (c10_blank_content_untitled " \n\t" (by decide)).2
      (initState docW) _ 5 docW rfl rfl _ rfl

/-- C4.  When a store write fails (`updateDocument` rejects), the
pipeline sets `SaveStatus` back to `unsaved` and touches nothing else:
the optimistic in-memory document (`currentDocument` content and
title), the pending debounce timer, the write log (no retry write is
started) and the durable store all stay exactly as they were; only the
failed write leaves the in-flight set.  So the next debounce cycle can
retry with the current content, and no automatic retry happens. -/
theorem c4_failed_write_reverts_status_only
    (s s' : PipelineState) (req : WriteReq)
    (hs : step s (.complete req false) = some s') :
    s'.status = .unsaved ∧ s'.doc = s.doc ∧ s'.timer = s.timer ∧
    s'.writes = s.writes ∧ s'.stored = s.stored ∧
    s'.inFlight = s.inFlight.erase req ∧ s'.now = s.now := by
  simp only [step] at hs
  split at hs
  · simp only [Bool.false_eq_true, if_false] at hs
    simp only [Option.some.injEq] at hs
    subst hs
    exact ⟨rfl, rfl, rfl, rfl, rfl, rfl, rfl⟩
  · simp at hs

/-- Witness for C4: a failing write completion on a concrete in-flight
state. -/
theorem c4_witness :
    step { now := 1000
           doc := some ⟨some 1, "a", "a"⟩
           status := .saving
           timer := none
           inFlight := [⟨1, "a", some "a"⟩]
           writes := [⟨1, "a", some "a"⟩]
           stored := ⟨"t", ""⟩ }
      (.complete ⟨1, "a", some "a"⟩ false) =
      some { now := 1000
             doc := some ⟨some 1, "a", "a"⟩
             status := .unsaved
             timer := none
             inFlight := []
             writes := [⟨1, "a", some "a"⟩]
             stored := ⟨"t", ""⟩ } ∧
    SaveStatus.unsaved = SaveStatus.unsaved ∧
    (some ⟨some 1, "a", "a"⟩ : Option Doc) = some ⟨some 1, "a", "a"⟩ := by
  have h := c4_failed_write_reverts_status_only
    { now := 1000
      doc := some ⟨some 1, "a", "a"⟩
      status := .saving
      timer := none
      inFlight := [⟨1, "a", some "a"⟩]
      writes := [⟨1, "a", some "a"⟩]
      stored := ⟨"t", ""⟩ }
    { now := 1000
      doc := some ⟨some 1, "a", "a"⟩
      status := .unsaved
      timer := none
      inFlight := []
      writes := [⟨1, "a", some "a"⟩]
      stored := ⟨"t", ""⟩ }
    ⟨1, "a", some "a"⟩ rfl
  exact ⟨rfl, h.1 ▸ rfl, h.2.1⟩

/-- C3.  Save status machine: on any reachable state, a successful
write completion always results in status `saved` and a failing write
completion always results in status `unsaved`; moreover whenever the
status is `saving`, a write really is in flight — its completion (which
must eventually arrive, successfully or not) moves the status out of
`saving`, so no state is stuck in `saving` once every started write has
resolved. -/
theorem c3_save_status_machine (d : Doc) (es : List Ev) (s' : PipelineState)
    (hrun : run (initState d) es = some s') :
    (s'.status = .saving → s'.inFlight ≠ []) ∧
    (∀ req s'', step s' (.complete req true) = some s'' →
      s''.status = .saved) ∧
    (∀ req s'', step s' (.complete req false) = some s'' →
      s''.status = .unsaved) := by
  refine ⟨(inv_reachable hrun).saving_inflight, ?_, ?_⟩
  · intro req s'' hs
    simp only [step] at hs
    split at hs
    · simp only [if_pos] at hs
      simp only [Option.some.injEq] at hs
      subst hs
      rfl
    · simp at hs
  · intro req s'' hs
    exact (c4_failed_write_reverts_status_only s' s'' req hs).1

/-- Witness for C3: a concrete reachable `saving` state with its write
in flight, and both completions of that write. -/
theorem c3_witness :
    run (initState docW) [.edit 0 "a", .timerFire] =
      some { now := 1000
             doc := some ⟨some 1, "a", "a"⟩
             status := .saving
             timer := none
             inFlight := [⟨1, "a", some "a"⟩]
             writes := [⟨1, "a", some "a"⟩]
             stored := ⟨"t", ""⟩ } ∧
    ([⟨1, "a", some "a"⟩] : List WriteReq) ≠ [] ∧
    SaveStatus.saved = SaveStatus.saved := by
  refine ⟨rfl, ?_, rfl⟩
  exact (c3_save_status_machine docW [.edit 0 "a", .timerFire] _ rfl).1 rfl

/-- Counterexample for C1: the code does not bound the number of writes
in flight.  An edit at t=0, its debounce fire at t=1000 (starting write
one), an edit at t=1100 arriving while the status is `saving`, and its
debounce fire at t=2100 — with write one still unresolved, as happens
whenever a store write takes longer than the 1000ms debounce window —
reach a state with two writes in flight simultaneously. -/
theorem c1_counterexample :
    (run (initState docW)
        [.edit 0 "a", .timerFire, .edit 1100 "b", .timerFire]).map
      (fun s => (s.inFlight.length, s.status)) =
      some (2, .saving) := rfl

/-- C1 (amended).  At most one debounce timer is pending per document
(`saveTimeout` is a single slot), a pending timer always carries the
current in-memory content, and the fire consuming it starts exactly one
write with that content — so the save scheduled after the last edit
writes the latest content and no update is lost.  The code does not,
however, prevent that fire from overlapping a still-unresolved earlier
write (see the counterexample). -/
theorem c1_latest_content_saved (d : Doc) (es : List Ev) (s' : PipelineState)
    (hrun : run (initState d) es = some s') :
    ∀ tm, s'.timer = some tm →
      (∀ dd, s'.doc = some dd →
        tm.content = dd.content ∧ tm.docId = dd.id) ∧
      s'.now ≤ tm.fireAt ∧
      (∀ i, tm.docId = some i → ∀ s'', step s' .timerFire = some s'' →
        s''.writes = s'.writes ++
          [⟨i, tm.content, if tm.titleChanged then some tm.newTitle else none⟩]) := by
  intro tm htm
  have hinv := inv_reachable hrun
  obtain ⟨dd₀, hdd₀, hc, hti, hid⟩ := hinv.timer_doc tm htm
  refine ⟨?_, hinv.timer_now tm htm, ?_⟩
  · intro dd hdd
    rw [hdd₀] at hdd
    simp only [Option.some.injEq] at hdd
    subst hdd
    exact ⟨hc, hid⟩
  · intro i hi s'' hs
    simp only [step, htm, hi, Option.some.injEq] at hs
    subst hs
    rfl

/-- Witness for C1 on a concrete one-edit run. -/
theorem c1_witness :
    run (initState docW) [.edit 0 "a"] =
      some { now := 0
             doc := some ⟨some 1, "a", "a"⟩
             status := .unsaved
             timer := some ⟨1000, some 1, "a", "a", true⟩
             inFlight := []
             writes := []
             stored := ⟨"t", ""⟩ } ∧
    ("a" : String) = "a" ∧
    step { now := 0
           doc := some ⟨some 1, "a", "a"⟩
           status := .unsaved
           timer := some ⟨1000, some 1, "a", "a", true⟩
           inFlight := []
           writes := []
           stored := ⟨"t", ""⟩ } .timerFire =
      some { now := 1000
             doc := some ⟨some 1, "a", "a"⟩
             status := .saving
             timer := none
             inFlight := [⟨1, "a", some "a"⟩]
             writes := [⟨1, "a", some "a"⟩]
             stored := ⟨"t", ""⟩ } ∧
    ([⟨1, "a", some "a"⟩] : List WriteReq) =
      [] ++ [⟨1, "a", if true then some "a" else none⟩] := by
  refine ⟨rfl, ?_, rfl, ?_⟩
  · exact ((c1_latest_content_saved docW [.edit 0 "a"] _ rfl
      ⟨1000, some 1, "a", "a", true⟩ rfl).1 ⟨some 1, "a", "a"⟩ rfl).1
  · exact (c1_latest_content_saved docW [.edit 0 "a"] _ rfl
      ⟨1000, some 1, "a", "a", true⟩ rfl).2.2 1 rfl _ rfl

/-- Counterexample for C5: the explicit save (`saveNow`) writes only
`{ content }` — no title (`documents.ts` line 177).  Starting from a
stored document with title `"Old"`, one edit to `"Hello\nWorld"`
followed by `saveNow` and a successful completion leaves the store with
content `"Hello\nWorld"` but title `"Old"`, while the title derived
from the stored content is `"Hello"`: after this completed save the
stored title is not consistent with the stored content. -/
theorem c5_counterexample :
    (run (initState ⟨some 1, "Old", "Old"⟩)
        [.edit 0 "Hello\nWorld", .saveNowEv,
         .complete ⟨1, "Hello\nWorld", none⟩ true]).map
      (fun s => (s.stored, s.writes)) =
      some (⟨"Old", "Hello\nWorld"⟩, [⟨1, "Hello\nWorld", none⟩]) ∧
    jsTitle "Hello\nWorld" = "Hello" ∧
    ("Old" : String) ≠ "Hello" := by
  refine ⟨rfl, by decide, by decide⟩

/-- C5 (amended).  The debounce-timer save derives the title from the
content's first non-empty line and writes it exactly when it differs
from the pre-edit in-memory title: every logged write that carries a
title carries the title derived from its own content.  The explicit
`saveNow` save, by contrast, writes only the content and never a title,
so it can leave the stored title out of sync with the stored content
(see the counterexample). -/
theorem c5_written_title_derived (d : Doc) (es : List Ev) (s' : PipelineState)
    (hrun : run (initState d) es = some s') :
    (∀ w ∈ s'.writes, ∀ ti, w.title = some ti → ti = jsTitle w.content) ∧
    (∀ s'' dd i, s'.doc = some dd → dd.id = some i →
      step s' .saveNowEv = some s'' →
      s''.writes = s'.writes ++ [⟨i, dd.content, none⟩]) := by
  refine ⟨(inv_reachable hrun).writes_title, ?_⟩
  intro s'' dd i hdd hi hs
  simp only [step, hdd, hi, Option.some.injEq] at hs
  subst hs
  rfl

/-- Witness for C5: a concrete run whose timer write carries the
derived title, then a `saveNow` write carrying none. -/
theorem c5_witness :
    run (initState ⟨some 2, "x", "hi"⟩) [.edit 0 "hey", .timerFire] =
      some { now := 1000
             doc := some ⟨some 2, "hey", "hey"⟩
             status := .saving
             timer := none
             inFlight := [⟨2, "hey", some "hey"⟩]
             writes := [⟨2, "hey", some "hey"⟩]
             stored := ⟨"x", "hi"⟩ } ∧
    ("hey" : String) = jsTitle "hey" ∧
    step { now := 1000
           doc := some ⟨some 2, "hey", "hey"⟩
           status := .saving
           timer := none
           inFlight := [⟨2, "hey", some "hey"⟩]
           writes := [⟨2, "hey", some "hey"⟩]
           stored := ⟨"x", "hi"⟩ } .saveNowEv =
      some { now := 1000
             doc := some ⟨some 2, "hey", "hey"⟩
             status := .saving
             timer := none
             inFlight := [⟨2, "hey", none⟩, ⟨2, "hey", some "hey"⟩]
             writes := [⟨2, "hey", some "hey"⟩, ⟨2, "hey", none⟩]
             stored := ⟨"x", "hi"⟩ } ∧
    ([⟨2, "hey", some "hey"⟩, ⟨2, "hey", none⟩] : List WriteReq) =
      [⟨2, "hey", some "hey"⟩] ++ [⟨2, "hey", none⟩] := by
  have h := c5_written_title_derived ⟨some 2, "x", "hi"⟩
    [.edit 0 "hey", .timerFire]
    { now := 1000
      doc := some ⟨some 2, "hey", "hey"⟩
      status := .saving
      timer := none
      inFlight := [⟨2, "hey", some "hey"⟩]
      writes := [⟨2, "hey", some "hey"⟩]
      stored := ⟨"x", "hi"⟩ } rfl
  refine ⟨rfl, ?_, rfl, ?_⟩
  · exact (h.1 ⟨2, "hey", some "hey"⟩ (by simp) "hey" rfl).symm
  · exact h.2
      { now := 1000
        doc := some ⟨some 2, "hey", "hey"⟩
        status := .saving
        timer := none
        inFlight := [⟨2, "hey", none⟩, ⟨2, "hey", some "hey"⟩]
        writes := [⟨2, "hey", some "hey"⟩, ⟨2, "hey", none⟩]
        stored := ⟨"x", "hi"⟩ }
      ⟨some 2, "hey", "hey"⟩ 2 rfl rfl rfl

theorem run_quiescent_no_events {es : List Ev} {s s' : PipelineState}
    (hev : ∀ e ∈ es, editOrFire e = true)
    (hed : es.filterMap editOf = [])
    (htm : s.timer = none)
    (hrun : run s es = some s') : s' = s := by
  cases es with
  | nil =>
    simp only [run, Option.some.injEq] at hrun
    exact hrun.symm
  | cons e es' =>
    cases e with
    | edit t c => simp [List.filterMap_cons, editOf] at hed
    | timerFire => simp [run, step, htm] at hrun
    | complete req ok =>
      simpa [editOrFire] using hev _ (List.mem_cons_self _ _)
    | saveNowEv =>
      simpa [editOrFire] using hev _ (List.mem_cons_self _ _)

theorem run_stuck_after_fire {es : List Ev} {s s' : PipelineState}
    {t₁ : Nat} {c₁ : String} {r : List (Nat × String)}
    (hev : ∀ e ∈ es, editOrFire e = true)
    (hed : es.filterMap editOf = (t₁, c₁) :: r)
    (htm : s.timer = none) (hlt : t₁ < s.now) :
    run s es ≠ some s' := by
  cases es with
  | nil => simp at hed
  | cons e es' =>
    cases e with
    | edit t c =>
      simp only [List.filterMap_cons, editOf, List.cons.injEq, Prod.mk.injEq] at hed
      obtain ⟨⟨ht, _⟩, _⟩ := hed
      subst ht
      simp [run, step, hlt]
    | timerFire => simp [run, step, htm]
    | complete req ok =>
      simpa [editOrFire] using hev _ (List.mem_cons_self _ _)
    | saveNowEv =>
      simpa [editOrFire] using hev _ (List.mem_cons_self _ _)

theorem coalesce_aux (es : List Ev) :
    ∀ (s : PipelineState) (i tcur : Nat) (ccur : String)
      (rem : List (Nat × String)) (s' : PipelineState),
      (∀ e ∈ es, editOrFire e = true) →
      es.filterMap editOf = rem →
      List.Chain' (fun p q : Nat × String => q.1 < p.1 + 1000)
        ((tcur, ccur) :: rem) →
      MidBurst i tcur ccur s →
      run s es = some s' →
      (Ev.timerFire ∉ es ∧ s'.writes = [] ∧
        ∃ tm, s'.timer = some tm ∧
          tm.content = (rem.getLastD (tcur, ccur)).2 ∧ tm.docId = some i) ∨
      (Ev.timerFire ∈ es ∧
        s'.writes.map (fun w => (w.docId, w.content)) =
          [(i, (rem.getLastD (tcur, ccur)).2)] ∧ s'.timer = none) := by
  induction es with
  | nil =>
    intro s i tcur ccur rem s' hev hed hchain hmid hrun
    simp only [List.filterMap_nil] at hed
    subst hed
    simp only [run, Option.some.injEq] at hrun
    subst hrun
    obtain ⟨tm, htm, hfire, hcont, hdocid⟩ := hmid.htimer
    exact Or.inl ⟨by simp, hmid.hwrites,
      tm, htm, by simpa [List.getLastD] using hcont, hdocid⟩
  | cons e es' ih =>
    intro s i tcur ccur rem s' hev hed hchain hmid hrun
    have hev' : ∀ e ∈ es', editOrFire e = true :=
      fun x hx => hev x (List.mem_cons_of_mem e hx)
    cases e with
    | edit t c =>
      simp only [List.filterMap_cons, editOf] at hed
      subst hed
      simp only [run] at hrun
      cases hstep : step s (.edit t c) with
      | none =>
        rw [hstep] at hrun
        exact absurd hrun (by simp)
      | some s₁ =>
        rw [hstep] at hrun
        obtain ⟨dd, hdd, hddid⟩ := hmid.hdoc
        simp only [step, hdd] at hstep
        split at hstep
        · exact absurd hstep (by simp)
        · split at hstep
          · exact absurd hstep (by simp)
          · simp only [Option.some.injEq] at hstep
            subst hstep
            have hmid' : MidBurst i t c
                { s with
                  now := t
                  doc := some { dd with content := c, title := jsTitle c }
                  status := .unsaved
                  timer := some ⟨t + 1000, dd.id, c, jsTitle c,
                    jsTitle c ≠ dd.title⟩ } := by
              refine ⟨rfl, ⟨_, rfl, hddid⟩, ⟨_, rfl, rfl, rfl, hddid⟩,
                hmid.hflight, hmid.hwrites⟩
            have hres := ih _ i t c _ s' hev' rfl
              (List.chain'_cons.mp hchain).2 hmid' hrun
            rw [List.getLastD_cons]
            rcases hres with ⟨hmem, hw, htm⟩ | ⟨hmem, hw, htm⟩
            · exact Or.inl ⟨by simp [hmem], hw, htm⟩
            · exact Or.inr ⟨List.mem_cons_of_mem _ hmem, hw, htm⟩
    | timerFire =>
      obtain ⟨tm, htm, hfire, hcont, hdocid⟩ := hmid.htimer
      simp only [List.filterMap_cons, editOf] at hed
      subst hed
      simp only [run] at hrun
      cases hstep : step s .timerFire with
      | none =>
        rw [hstep] at hrun
        exact absurd hrun (by simp)
      | some s₁ =>
        rw [hstep] at hrun
        simp only [step, htm, hdocid, Option.some.injEq] at hstep
        subst hstep
        cases hfm : List.filterMap editOf es' with
        | nil =>
          have hquiet := run_quiescent_no_events hev' hfm rfl hrun
          subst hquiet
          refine Or.inr ⟨List.mem_cons_self _ _, ?_, rfl⟩
          simp [hmid.hwrites, hcont, List.getLastD]
        | cons p r =>
          obtain ⟨t₁, c₁⟩ := p
          rw [hfm] at hchain
          have hrel := (List.chain'_cons.mp hchain).1
          refine absurd hrun (run_stuck_after_fire hev' hfm rfl ?_)
          dsimp only
          omega
    | complete req ok =>
      simpa [editOrFire] using hev _ (List.mem_cons_self _ _)
    | saveNowEv =>
      simpa [editOrFire] using hev _ (List.mem_cons_self _ _)

/-- C2.  Debounce coalescing: starting quiescent, any number of
`updateContent` calls that each arrive strictly less than 1000ms after
the previous one produce — over every scheduling of the debounce timer
the event loop permits — at most one store write: none while the final
debounce window is still open (the pending timer then carries the last
call's content), and exactly one once the timer has fired, containing
exactly the content of the last call; after the fire no further timer
is pending. -/
theorem c2_debounce_coalescing (i : Nat) (d : Doc) (hid : d.id = some i)
    (pairs : List (Nat × String)) (hne : pairs ≠ [])
    (hwin : List.Chain' (fun p q : Nat × String => q.1 < p.1 + 1000) pairs)
    (es : List Ev) (hev : ∀ e ∈ es, editOrFire e = true)
    (hed : es.filterMap editOf = pairs)
    (s' : PipelineState) (hrun : run (initState d) es = some s') :
    (Ev.timerFire ∉ es ∧ s'.writes = [] ∧
      Option.map Timer.content s'.timer = some (pairs.getLastD (0, "")).2) ∨
    (Ev.timerFire ∈ es ∧
      s'.writes.map (fun w => (w.docId, w.content)) =
        [(i, (pairs.getLastD (0, "")).2)] ∧ s'.timer = none) := by
  cases es with
  | nil =>
    simp only [List.filterMap_nil] at hed
    exact absurd hed.symm hne
  | cons e es' =>
    have hev' : ∀ x ∈ es', editOrFire x = true :=
      fun x hx => hev x (List.mem_cons_of_mem e hx)
    cases e with
    | edit t c =>
      simp only [List.filterMap_cons, editOf] at hed
      subst hed
      simp only [run] at hrun
      cases hstep : step (initState d) (.edit t c) with
      | none =>
        rw [hstep] at hrun
        exact absurd hrun (by simp)
      | some s₁ =>
        rw [hstep] at hrun
        simp only [step, initState] at hstep
        split at hstep
        · exact absurd hstep (by simp)
        · split at hstep
          · rename_i hdue
            simp [timerDue, initState] at hdue
          · simp only [Option.some.injEq] at hstep
            subst hstep
            have hmid : MidBurst i t c
                { now := t
                  doc := some { d with content := c, title := jsTitle c }
                  status := .unsaved
                  timer := some ⟨t + 1000, d.id, c, jsTitle c,
                    jsTitle c ≠ d.title⟩
                  inFlight := []
                  writes := []
                  stored := ⟨d.title, d.content⟩ } := by
              refine ⟨rfl, ⟨_, rfl, hid⟩, ⟨_, rfl, rfl, rfl, hid⟩, rfl, rfl⟩
            have hres := coalesce_aux es' _ i t c _ s' hev' rfl hwin
              hmid hrun
            rw [List.getLastD_cons]
            rcases hres with ⟨hmem, hw, tm, htm, hcont, _⟩ | ⟨hmem, hw, htm⟩
            · refine Or.inl ⟨by simp [hmem], hw, ?_⟩
              rw [htm]
              simp [hcont]
            · exact Or.inr ⟨List.mem_cons_of_mem _ hmem, hw, htm⟩
    | timerFire => simp [run, step, initState] at hrun
    | complete req ok =>
      simpa [editOrFire] using hev _ (List.mem_cons_self _ _)
    | saveNowEv =>
      simpa [editOrFire] using hev _ (List.mem_cons_self _ _)

/-- Witness for C2: three edits inside one debounce window followed by
the single timer fire yield exactly one write, carrying the last
content. -/
theorem c2_witness :
    (some 1 : Option Nat) = some 1 ∧
    ([(0, "a"), (500, "ab"), (999, "abc")] : List (Nat × String)) ≠ [] ∧
    run (initState docW)
      [.edit 0 "a", .edit 500 "ab", .edit 999 "abc", .timerFire] =
      some { now := 1999
             doc := some ⟨some 1, "abc", "abc"⟩
             status := .saving
             timer := none
             inFlight := [⟨1, "abc", some "abc"⟩]
             writes := [⟨1, "abc", some "abc"⟩]
             stored := ⟨"t", ""⟩ } ∧
    ([⟨1, "abc", some "abc"⟩] : List WriteReq).map
      (fun w => (w.docId, w.content)) = [(1, "abc")] := by
  refine ⟨rfl, by simp, rfl, ?_⟩
  have hres := c2_debounce_coalescing 1 docW rfl
    [(0, "a"), (500, "ab"), (999, "abc")] (by simp)
    (by simp)
    [.edit 0 "a", .edit 500 "ab", .edit 999 "abc", .timerFire]
    (by intro e he; fin_cases he <;> rfl)
    (by rfl)
    { now := 1999
      doc := some ⟨some 1, "abc", "abc"⟩
      status := .saving
      timer := none
      inFlight := [⟨1, "abc", some "abc"⟩]
      writes := [⟨1, "abc", some "abc"⟩]
      stored := ⟨"t", ""⟩ } rfl
  rcases hres with ⟨hmem, _⟩ | ⟨_, hw, _⟩
  · exact absurd (by simp : Ev.timerFire ∈
      [Ev.edit 0 "a", Ev.edit 500 "ab", Ev.edit 999 "abc", Ev.timerFire]) hmem
  · exact hw

theorem applyFocus_resolved_index (s : FocusState) (i : Int) :
    (applyFocusActiveStyle s (.resolved i)).1.lastActiveBlockIndex = i := by
  simp only [applyFocusActiveStyle]
  split
  · rename_i h
    exact h.symm
  · split <;> rfl

theorem applyFocus_same_noop (s : FocusState) (i : Int)
    (h : s.lastActiveBlockIndex = i) :
    applyFocusActiveStyle s (.resolved i) = (s, false) := by
  simp [applyFocusActiveStyle, h]

theorem runFocus_same (n : Nat) (s : FocusState) (i : Int)
    (h : s.lastActiveBlockIndex = i) :
    runFocus s (List.replicate n (.resolved i)) = (s, 0) := by
  induction n with
  | zero => simp [runFocus]
  | succ n ih =>
    simp [List.replicate_succ, runFocus, applyFocus_same_noop s i h, ih]

/-- C8.  Focus style synchronizer: while the resolved active block
index stays equal to some `i`, any number of `applyFocusActiveStyle`
calls touch the owned style resource at most once; once
`lastActiveBlockIndex` already equals `i`, every further call with `i`
is a no-op on the state — zero mutations. -/
theorem c8_focus_noop_on_same_index (s : FocusState) (i : Int) (n : Nat) :
    (runFocus s (List.replicate n (.resolved i))).2 ≤ 1 ∧
    (s.lastActiveBlockIndex = i →
      runFocus s (List.replicate n (.resolved i)) = (s, 0)) := by
  constructor
  · cases n with
    | zero => simp [runFocus]
    | succ n =>
      simp only [List.replicate_succ, runFocus]
      rw [runFocus_same n _ i (applyFocus_resolved_index s i)]
      split <;> simp
  · exact runFocus_same n s i

/-- Witness for C8: three calls with a fresh index mutate at most once;
repeated calls with the already-active index mutate zero times. -/
theorem c8_witness :
    (runFocus ⟨-1, none⟩ (List.replicate 3 (.resolved 2))).2 ≤ 1 ∧
    runFocus ⟨-1, none⟩ (List.replicate 2 (.resolved (-1))) =
      (⟨-1, none⟩, 0) := by
  exact ⟨(c8_focus_noop_on_same_index ⟨-1, none⟩ 2 3).1,
    (c8_focus_noop_on_same_index ⟨-1, none⟩ (-1) 2).2 rfl⟩

theorem twFrame_startTime (s : TWState) (t : ℚ) :
    (twFrame s t).typewriterAnimationStartTime =
      s.typewriterAnimationStartTime := by
  simp only [twFrame]
  split
  · rfl
  · split <;> rfl

theorem twCursor_animating (s : TWState) (y ty t : ℚ)
    (h : s.isTypewriterAnimating = true) :
    (twCursor s y ty t).typewriterAnimationStartTime =
      s.typewriterAnimationStartTime ∧
    (twCursor s y ty t).isTypewriterAnimating = true ∧
    (twCursor s y ty t).frame = s.frame := by
  simp only [twCursor, h, Bool.not_true]
  split
  · simp
  · exact ⟨rfl, h, rfl⟩

theorem twStates_self (s : TWState) (es : List TWEv) :
    s ∈ twStates s es := by
  cases es with
  | nil => simp [twStates]
  | cons e es' => cases e <;> simp [twStates]

theorem twFrame_frame_eq (s : TWState) (t : ℚ) :
    (twFrame s t).frame = (twFrame s t).isTypewriterAnimating := by
  simp only [twFrame]
  split
  · rfl
  · split
    · rfl
    · rfl

theorem twFrame_past_deadline (s : TWState) (t : ℚ)
    (h : s.typewriterAnimationStartTime + TYPEWRITER_MAX_ANIMATION_MS < t) :
    twFrame s t = { s with isTypewriterAnimating := false, frame := false } := by
  simp only [twFrame]
  rw [if_pos (by linarith)]

theorem twRun_startTime (es : List TWEv) (s : TWState)
    (halive : ∀ s₁ ∈ twStates s es, s₁.isTypewriterAnimating = true) :
    (twRun s es).typewriterAnimationStartTime =
      s.typewriterAnimationStartTime := by
  induction es generalizing s with
  | nil => rfl
  | cons e es' ih =>
    cases e with
    | frame t =>
      have hnext : ∀ s₁ ∈ twStates (if s.frame then twFrame s t else s) es',
          s₁.isTypewriterAnimating = true := by
        intro s₁ hs₁
        exact halive s₁ (by simp [twStates, hs₁])
      have hst : (if s.frame then twFrame s t else s).typewriterAnimationStartTime =
          s.typewriterAnimationStartTime := by
        split
        · exact twFrame_startTime s t
        · rfl
      calc (twRun s (.frame t :: es')).typewriterAnimationStartTime
          = (twRun (if s.frame then twFrame s t else s) es').typewriterAnimationStartTime := rfl
        _ = _ := by rw [ih _ hnext, hst]
    | cursor y ty t =>
      have hanim : s.isTypewriterAnimating = true :=
        halive s (twStates_self s (.cursor y ty t :: es'))
      have hnext : ∀ s₁ ∈ twStates (twCursor s y ty t) es',
          s₁.isTypewriterAnimating = true := by
        intro s₁ hs₁
        exact halive s₁ (by simp [twStates, hs₁])
      calc (twRun s (.cursor y ty t :: es')).typewriterAnimationStartTime
          = (twRun (twCursor s y ty t) es').typewriterAnimationStartTime := rfl
        _ = _ := by
            rw [ih _ hnext, (twCursor_animating s y ty t hanim).1]

/-- C6.  Typewriter animation termination: across any interleaving of
frame executions and scroll-target updates during which the task keeps
running (every intermediate state still animating — the case in which
the target never converged), the task's recorded start time never
changes: target updates arriving while animating reset only the target,
never the deadline.  Consequently any frame executing later than
`TYPEWRITER_MAX_ANIMATION_MS` after the task's start stops the task:
it schedules no further frame, stops animating, and moves nothing.
And a frame that stops animating for any reason (deadline or epsilon
convergence) never leaves a frame scheduled, so in every case the task
stops scheduling steps within the 500ms cap of its start. -/
theorem c6_typewriter_deadline (s : TWState) (es : List TWEv) (t : ℚ)
    (halive : ∀ s₁ ∈ twStates s es, s₁.isTypewriterAnimating = true)
    (ht : s.typewriterAnimationStartTime + TYPEWRITER_MAX_ANIMATION_MS < t) :
    (twRun s es).typewriterAnimationStartTime =
      s.typewriterAnimationStartTime ∧
    twFrame (twRun s es) t =
      { twRun s es with isTypewriterAnimating := false, frame := false } ∧
    (∀ (s₂ : TWState) (t₂ : ℚ), (twFrame s₂ t₂).isTypewriterAnimating = false →
      (twFrame s₂ t₂).frame = false) := by
  have hst := twRun_startTime es s halive
  refine ⟨hst, twFrame_past_deadline _ t (by rw [hst]; exact ht), ?_⟩
  intro s₂ t₂ h₂
  rw [twFrame_frame_eq, h₂]

/-- Witness for C6: a running task, one retarget and one in-deadline
frame later, is stopped cold by a frame at t = 600 > 500. -/
theorem c6_witness :
    (∀ s₁ ∈ twStates ⟨0, 100, true, true, 0, 0⟩
        [.cursor 10 0 100, .frame 16], s₁.isTypewriterAnimating = true) ∧
    ((0 : ℚ) + TYPEWRITER_MAX_ANIMATION_MS < 600) ∧
    (twRun ⟨0, 100, true, true, 0, 0⟩
        [.cursor 10 0 100, .frame 16]).typewriterAnimationStartTime = 0 ∧
    twFrame (twRun ⟨0, 100, true, true, 0, 0⟩
        [.cursor 10 0 100, .frame 16]) 600 =
      { twRun ⟨0, 100, true, true, 0, 0⟩ [.cursor 10 0 100, .frame 16] with
          isTypewriterAnimating := false, frame := false } := by
  have halive : ∀ s₁ ∈ twStates ⟨0, 100, true, true, 0, 0⟩
      [.cursor 10 0 100, .frame 16], s₁.isTypewriterAnimating = true := by
    norm_num [twStates, twCursor, twFrame, TYPEWRITER_MAX_ANIMATION_MS]
  have hlt : ((0 : ℚ) + TYPEWRITER_MAX_ANIMATION_MS < 600) := by
    norm_num [TYPEWRITER_MAX_ANIMATION_MS]
  have h := c6_typewriter_deadline ⟨0, 100, true, true, 0, 0⟩
    [.cursor 10 0 100, .frame 16] 600 halive hlt
  exact ⟨halive, hlt, h.1, h.2.1⟩

/-- Counterexample for C7: the current `applyTypewriterMode`
(`Editor.svelte` lines 224–261) has no jump classification at all.  A
40px cursor jump (relative cursor y moving from 100 to 140 with the
viewport center at 100) does not apply the 40px offset instantly: it
starts the animation, which moves the scroll only 20% of the way (to 8)
and schedules a further animation step. -/
theorem c7_counterexample :
    twRun ⟨0, 0, false, false, 0, 100⟩
      [.cursor 100 100 0, .cursor 140 100 10] =
      ⟨8, 40, true, true, 10, 100⟩ ∧
    ((8 : ℚ) ≠ 0 + 40) := by
  constructor
  · norm_num [twRun, twCursor, twFrame, TYPEWRITER_MAX_ANIMATION_MS]
  · norm_num

/-- C7 (amended).  The instant-jump classification exists only in the
historical `part_000` variant of `applyTypewriterMode`.  There, a
cursor-moved event whose vertical position changed by more than the
30px jump threshold and which lies outside the 2px deadband applies the
scroll offset immediately (`scrollTop := currentScroll + diff`),
cancels any running animation and schedules zero animation steps; an
event inside the deadband only records the cursor position.  The
current `Editor.svelte` version animates every movement instead (see
the counterexample). -/
theorem c7_jump_instant (s : TWState) (force : Bool) (y ty now : ℚ) :
    (|y - s.lastCursorY| > INSTANT_SCROLL_THRESHOLD → |y - ty| > 2 →
      twCursorJump s force y ty now =
        { s with
            lastCursorY := y
            currentScrollTarget := s.scrollTop + (y - ty)
            scrollTop := s.scrollTop + (y - ty)
            frame := false
            isTypewriterAnimating := false }) ∧
    (¬(|y - ty| > 2) →
      twCursorJump s force y ty now = { s with lastCursorY := y }) := by
  constructor
  · intro hjump hdiff
    have hj : decide (|y - s.lastCursorY| > INSTANT_SCROLL_THRESHOLD) = true :=
      decide_eq_true hjump
    simp [twCursorJump, cancelTypewriterAnimation, hdiff, hj]
  · intro hdiff
    simp [twCursorJump, hdiff]

/-- Witness for C7 on a concrete running animation: a 40px jump lands
instantly and cancels the task; a 1px drift is a no-op apart from the
recorded cursor position. -/
theorem c7_witness :
    (|(140 : ℚ) - 100| > INSTANT_SCROLL_THRESHOLD) ∧
    (|(140 : ℚ) - 100| > 2) ∧
    twCursorJump ⟨0, 0, true, true, 50, 100⟩ false 140 100 0 =
      ⟨40, 40, false, false, 50, 140⟩ ∧
    (¬(|(101 : ℚ) - 100| > 2)) ∧
    twCursorJump ⟨0, 0, true, true, 50, 100⟩ false 101 100 0 =
      ⟨0, 0, true, true, 50, 101⟩ := by
  have h₁ : |(140 : ℚ) - 100| > INSTANT_SCROLL_THRESHOLD := by
    norm_num [INSTANT_SCROLL_THRESHOLD]
  have h₂ : |(140 : ℚ) - 100| > 2 := by norm_num
  have h₃ : ¬(|(101 : ℚ) - 100| > 2) := by norm_num
  have hi := (c7_jump_instant ⟨0, 0, true, true, 50, 100⟩ false 140 100 0).1
    (by simpa using h₁) h₂
  have hd := (c7_jump_instant ⟨0, 0, true, true, 50, 100⟩ false 101 100 0).2
    (by simpa using h₃)
  refine ⟨h₁, h₂, ?_, h₃, ?_⟩
  · rw [hi]
    norm_num
  · rw [hd]

theorem selInv_init : SelInv selInit := by
  constructor <;> simp [selInit]

theorem selInv_step {s s' : SelState} {e : SelEv}
    (h : SelInv s) (hs : selStep s e = some s') : SelInv s' := by
  cases e with
  | sel t v =>
    simp only [selStep] at hs
    split at hs
    · simp at hs
    · rename_i hnow
      split at hs
      · simp only [Option.some.injEq] at hs
        subst hs
        refine ⟨?_, h.himm_le, h.hsep⟩
        dsimp only
        have := h.hlast
        omega
      · rename_i hthr
        simp only [Option.some.injEq] at hs
        subst hs
        refine ⟨by dsimp only; omega, ?_, ?_⟩
        · intro τ hτ
          dsimp only at hτ ⊢
          simp only [List.mem_append, List.mem_singleton] at hτ
          rcases hτ with hτ | hτ
          · have h1 := h.himm_le τ hτ
            have h2 := h.hlast
            omega
          · omega
        · dsimp only
          rw [List.chain'_append]
          refine ⟨h.hsep, List.chain'_singleton t, ?_⟩
          intro x hx y hy
          simp only [List.head?_cons, Option.mem_def, Option.some.injEq] at hy
          subst hy
          obtain ⟨hne, hxl⟩ := List.mem_getLast?_eq_getLast hx
          have hxmem : x ∈ s.immTimes := hxl ▸ List.getLast_mem hne
          have h1 := h.himm_le x hxmem
          have h2 := h.hlast
          simp only [SELECTION_CHANGE_THROTTLE_MS] at hthr ⊢
          omega
  | raf t =>
    simp only [selStep] at hs
    split at hs
    · simp at hs
    · split at hs
      · simp only [Option.some.injEq] at hs
        subst hs
        refine ⟨by dsimp only; omega, ?_, h.hsep⟩
        intro τ hτ
        dsimp only at hτ ⊢
        have h1 := h.himm_le τ hτ
        have h2 := h.hlast
        omega
      · simp at hs

theorem selInv_run {s s' : SelState} {es : List SelEv}
    (h : SelInv s) (hs : selRun s es = some s') : SelInv s' := by
  induction es generalizing s with
  | nil =>
    simp only [selRun, Option.some.injEq] at hs
    subst hs
    exact h
  | cons e es' ih =>
    simp only [selRun] at hs
    cases hstep : selStep s e with
    | none => rw [hstep] at hs; cases hs
    | some s₁ =>
      rw [hstep] at hs
      exact ih (selInv_step h hstep) hs

theorem selRun_immTimes {s s' : SelState} {es : List SelEv}
    (hs : selRun s es = some s') :
    ∀ τ ∈ s'.immTimes, τ ∈ s.immTimes ∨ ∃ v, SelEv.sel τ v ∈ es := by
  induction es generalizing s with
  | nil =>
    simp only [selRun, Option.some.injEq] at hs
    subst hs
    exact fun τ hτ => Or.inl hτ
  | cons e es' ih =>
    simp only [selRun] at hs
    cases hstep : selStep s e with
    | none => rw [hstep] at hs; cases hs
    | some s₁ =>
      rw [hstep] at hs
      intro τ hτ
      rcases ih hs τ hτ with h₁ | ⟨v, hv⟩
      · cases e with
        | sel t w =>
          simp only [selStep] at hstep
          split at hstep
          · simp at hstep
          · split at hstep
            · simp only [Option.some.injEq] at hstep
              subst hstep
              exact Or.inl h₁
            · simp only [Option.some.injEq] at hstep
              subst hstep
              dsimp only at h₁
              simp only [List.mem_append, List.mem_singleton] at h₁
              rcases h₁ with h₁ | h₁
              · exact Or.inl h₁
              · subst h₁
                exact Or.inr ⟨w, List.mem_cons_self _ _⟩
        | raf t =>
          simp only [selStep] at hstep
          split at hstep
          · simp at hstep
          · split at hstep
            · simp only [Option.some.injEq] at hstep
              subst hstep
              exact Or.inl h₁
            · simp at hstep
      · exact Or.inr ⟨v, List.mem_cons_of_mem _ hv⟩

theorem selStep_q {s s' : SelState} {e : SelEv}
    (hs : selStep s e = some s') :
    s'.rafPending = true ∨ s'.lastRecomputed = some s'.cur := by
  cases e with
  | sel t v =>
    simp only [selStep] at hs
    split at hs
    · simp at hs
    · split at hs
      · simp only [Option.some.injEq] at hs
        subst hs
        exact Or.inl rfl
      · simp only [Option.some.injEq] at hs
        subst hs
        exact Or.inr rfl
  | raf t =>
    simp only [selStep] at hs
    split at hs
    · simp at hs
    · split at hs
      · simp only [Option.some.injEq] at hs
        subst hs
        exact Or.inr rfl
      · simp at hs

theorem selRun_q {s s' : SelState} {es : List SelEv}
    (hne : es ≠ []) (hs : selRun s es = some s') :
    s'.rafPending = true ∨ s'.lastRecomputed = some s'.cur := by
  induction es generalizing s with
  | nil => exact absurd rfl hne
  | cons e es' ih =>
    simp only [selRun] at hs
    cases hstep : selStep s e with
    | none => rw [hstep] at hs; cases hs
    | some s₁ =>
      rw [hstep] at hs
      cases es' with
      | nil =>
        simp only [selRun, Option.some.injEq] at hs
        subst hs
        exact selStep_q hstep
      | cons f fs => exact ih (by simp) hs

theorem sep_length_le (B : Nat) (a : Nat) (l : List Nat)
    (hchain : List.Chain'
      (fun x y => x + SELECTION_CHANGE_THROTTLE_MS ≤ y) (a :: l))
    (hub : ∀ τ ∈ a :: l, τ ≤ B) :
    (a :: l).length ≤ (B - a) / SELECTION_CHANGE_THROTTLE_MS + 1 := by
  induction l generalizing a with
  | nil => simp
  | cons b l' ih =>
    have hab := (List.chain'_cons.mp hchain).1
    have h2 := ih b (List.chain'_cons.mp hchain).2
      (fun τ hτ => hub τ (List.mem_cons_of_mem _ hτ))
    have hbB : b ≤ B := hub b (by simp)
    simp only [SELECTION_CHANGE_THROTTLE_MS] at hab h2 ⊢
    have h50 : (B - b) + 50 ≤ B - a := by omega
    have hdiv : (B - b) / 50 + 1 ≤ (B - a) / 50 := by
      calc (B - b) / 50 + 1 = ((B - b) + 50) / 50 :=
            (Nat.add_div_right _ (by norm_num)).symm
        _ ≤ (B - a) / 50 := Nat.div_le_div_right h50
    simp only [List.length_cons] at h2 ⊢
    omega

/-- Counterexample for C9: the trailing recomputation is scheduled with
`requestAnimationFrame`, which fires at the next frame — during a long
burst it runs and re-arms repeatedly.  A burst of three selection
events at t = 100, 102, 118 (duration 18ms), with animation frames at
116 and 132, performs 1 immediate and 2 trailing recomputations: 3
full recomputations, exceeding the claimed bound ⌈18/50⌉ + 1 = 2, and
more than one trailing recomputation. -/
theorem c9_counterexample :
    (selRun selInit
        [.sel 100 1, .sel 102 2, .raf 116, .sel 118 3, .raf 132]).map
      (fun s => (s.immTimes.length, s.rafCount)) = some (1, 2) ∧
    1 + 2 > (18 + SELECTION_CHANGE_THROTTLE_MS - 1) /
      SELECTION_CHANGE_THROTTLE_MS + 1 := by
  exact ⟨rfl, by decide⟩

/-- C9 (amended).  What the throttle does guarantee: immediate
recomputations are at least one rate-limit period apart, so a burst
whose selection events all lie within a window of duration `D` causes
at most `D / R + 1` immediate recomputations; at most one trailing
callback is pending at any time, and once the run quiesces the state
reflects the last event — either the last recomputation already
snapshotted the current selection state, or one trailing callback is
pending and recomputes exactly it (bumping the trailing count by one).
The total number of recomputations, however, is not bounded by
`⌈D/R⌉ + 1`, because the trailing callback can run and re-arm inside
the burst (see the counterexample). -/
theorem c9_throttle_bound (es : List SelEv) (s' : SelState) (t0 D : Nat)
    (hrun : selRun selInit es = some s')
    (hburst : ∀ t v, SelEv.sel t v ∈ es → t0 ≤ t ∧ t ≤ t0 + D) :
    s'.immTimes.length ≤ D / SELECTION_CHANGE_THROTTLE_MS + 1 ∧
    (s'.rafPending = false → es ≠ [] → s'.lastRecomputed = some s'.cur) ∧
    (∀ tf s'', selStep s' (.raf tf) = some s'' →
      s''.lastRecomputed = some s'.cur ∧ s''.rafPending = false ∧
      s''.rafCount = s'.rafCount + 1) := by
  refine ⟨?_, ?_, ?_⟩
  · have hinv := selInv_run selInv_init hrun
    have hprov := selRun_immTimes hrun
    cases him : s'.immTimes with
    | nil => simp
    | cons a l =>
      have hub : ∀ τ ∈ a :: l, τ ≤ t0 + D := by
        intro τ hτ
        rcases hprov τ (him ▸ hτ) with hin | ⟨v, hv⟩
        · simp [selInit] at hin
        · exact (hburst τ v hv).2
      have hlb : t0 ≤ a := by
        rcases hprov a (him ▸ List.mem_cons_self a l) with hin | ⟨v, hv⟩
        · simp [selInit] at hin
        · exact (hburst a v hv).1
      have hchain := hinv.hsep
      rw [him] at hchain
      have hlen := sep_length_le (t0 + D) a l hchain hub
      have hmono : (t0 + D - a) / SELECTION_CHANGE_THROTTLE_MS ≤
          D / SELECTION_CHANGE_THROTTLE_MS :=
        Nat.div_le_div_right (by omega)
      exact le_trans hlen (Nat.add_le_add_right hmono 1)
  · intro hraf hne
    rcases selRun_q hne hrun with h | h
    · rw [hraf] at h
      cases h
    · exact h
  · intro tf s'' hs
    simp only [selStep] at hs
    split at hs
    · simp at hs
    · split at hs
      · simp only [Option.some.injEq] at hs
        subst hs
        exact ⟨rfl, rfl, rfl⟩
      · simp at hs

/-- Witness for C9 on two concrete bursts: a quiesced one whose final
recomputation reflects the last event, and one with a pending trailing
callback whose fire recomputes the last state. -/
theorem c9_witness :
    selRun selInit [.sel 100 1, .sel 102 2, .raf 116] =
      some { now := 116
             lastSelectionChangeTime := 116
             rafPending := false
             cur := 2
             lastRecomputed := some 2
             immTimes := [100]
             rafCount := 1 } ∧
    ([100] : List Nat).length ≤ 18 / SELECTION_CHANGE_THROTTLE_MS + 1 ∧
    (some 2 : Option Nat) = some 2 ∧
    selRun selInit [.sel 200 5, .sel 202 6] =
      some { now := 202
             lastSelectionChangeTime := 200
             rafPending := true
             cur := 6
             lastRecomputed := some 5
             immTimes := [200]
             rafCount := 0 } ∧
    selStep { now := 202
              lastSelectionChangeTime := 200
              rafPending := true
              cur := 6
              lastRecomputed := some 5
              immTimes := [200]
              rafCount := 0 } (.raf 216) =
      some { now := 216
             lastSelectionChangeTime := 216
             rafPending := false
             cur := 6
             lastRecomputed := some 6
             immTimes := [200]
             rafCount := 1 } ∧
    (some 6 : Option Nat) = some 6 ∧ (1 : Nat) = 0 + 1 := by
  have hb1 : ∀ t v, SelEv.sel t v ∈
      [SelEv.sel 100 1, SelEv.sel 102 2, SelEv.raf 116] →
      100 ≤ t ∧ t ≤ 100 + 18 := by
    intro t v hv
    simp only [List.mem_cons, List.not_mem_nil, or_false] at hv
    rcases hv with h | h | h
    · injection h with h1 h2
      omega
    · injection h with h1 h2
      omega
    · exact absurd h (by simp)
  have hb2 : ∀ t v, SelEv.sel t v ∈ [SelEv.sel 200 5, SelEv.sel 202 6] →
      200 ≤ t ∧ t ≤ 200 + 2 := by
    intro t v hv
    simp only [List.mem_cons, List.not_mem_nil, or_false] at hv
    rcases hv with h | h
    · injection h with h1 h2
      omega
    · injection h with h1 h2
      omega
  have h1 := c9_throttle_bound
    [.sel 100 1, .sel 102 2, .raf 116]
    { now := 116
      lastSelectionChangeTime := 116
      rafPending := false
      cur := 2
      lastRecomputed := some 2
      immTimes := [100]
      rafCount := 1 } 100 18 rfl hb1
  have h2 := c9_throttle_bound
    [.sel 200 5, .sel 202 6]
    { now := 202
      lastSelectionChangeTime := 200
      rafPending := true
      cur := 6
      lastRecomputed := some 5
      immTimes := [200]
      rafCount := 0 } 200 2 rfl hb2
  have h3 := h2.2.2 216
    { now := 216
      lastSelectionChangeTime := 216
      rafPending := false
      cur := 6
      lastRecomputed := some 6
      immTimes := [200]
      rafCount := 1 } rfl
  exact ⟨rfl, h1.1, h1.2.1 rfl (by simp), rfl, rfl, h3.1, h3.2.2⟩

end Wright
